import Mathlib

/-!
Verification of the parametric curve evaluation core of the repository:
iterative De Casteljau Bézier evaluation, adaptive (Gravesen) Bézier
subdivision, uniform / quadratic uniform B-spline evaluation, and cubic
Catmull-Rom spline construction.

JavaScript numbers are modelled as exact reals.  `gl-matrix` vectors are
modelled as a `Vec3` structure of three reals; the in-place array loops of
the source are modelled as pure list transformations that produce the same
sequence of values (updates run left to right, so position `i` is rewritten
from the old values at `i` and `i+1` before position `i+1` is touched).
Possible thrown errors are modelled with `Except String`, and the
work-stack loop of `adaptiveSubdivision` (whose termination the source does
not establish) is modelled with explicit fuel.
-/

set_option maxHeartbeats 1000000

namespace Curves

/-- Model of a gl-matrix `vec3`: three real components. -/
structure Vec3 where
  x : ℝ
  y : ℝ
  z : ℝ

instance : Inhabited Vec3 := ⟨⟨0, 0, 0⟩⟩

/-- `vec3.clone(v)`: a fresh copy of the vector (value identity). -/
def Vec3.clone (v : Vec3) : Vec3 := ⟨v.x, v.y, v.z⟩

/-- `vec3.lerp(out, a, b, t)` as implemented by gl-matrix:
`out = a + t * (b - a)` componentwise. -/
def Vec3.lerp (a b : Vec3) (t : ℝ) : Vec3 :=
  ⟨a.x + t * (b.x - a.x), a.y + t * (b.y - a.y), a.z + t * (b.z - a.z)⟩

/-- One pass of the in-place loop
`for (i = 0; i < points.length - 1; i++) vec3.lerp(points[i], points[i], points[i+1], t)`
followed by `points.pop()`: the list of lerps of consecutive pairs
(length drops by one). -/
def lerpStep (t : ℝ) : List Vec3 → List Vec3
  | a :: b :: rest => Vec3.lerp a b t :: lerpStep t (b :: rest)
  | _ => []

theorem lerpStep_length (t : ℝ) (l : List Vec3) :
    (lerpStep t l).length = l.length - 1 := by
  induction l with
  | nil => simp [lerpStep]
  | cons a l ih =>
    cases l with
    | nil => simp [lerpStep]
    | cons b rest =>
      simp only [lerpStep, List.length_cons] at ih ⊢
      omega

/-- The `while (points.length > 1)` reduction loop of `evaluateBezierCurve`
(and of `uniformBSpline`). -/
def reduceToOne (t : ℝ) (l : List Vec3) : List Vec3 :=
  if h : 1 < l.length then reduceToOne t (lerpStep t l) else l
termination_by l.length
decreasing_by
  rw [lerpStep_length]; omega

theorem reduceToOne_eq (t : ℝ) (l : List Vec3) :
    reduceToOne t l = if 1 < l.length then reduceToOne t (lerpStep t l) else l := by
  rw [reduceToOne]; split <;> rfl

/-- The reduction loop runs exactly `length - 1` times. -/
theorem reduceToOne_eq_iterate :
    ∀ (n : ℕ) (t : ℝ) (l : List Vec3), l.length = n →
      reduceToOne t l = (lerpStep t)^[n - 1] l := by
  intro n
  induction n using Nat.strong_induction_on with
  | _ n ih =>
    intro t l hl
    rw [reduceToOne_eq]
    by_cases h : 1 < l.length
    · have hstep : (lerpStep t l).length = n - 1 := by rw [lerpStep_length, hl]
      have hlt : n - 1 < n := by omega
      rw [if_pos h, ih (n - 1) hlt t (lerpStep t l) hstep]
      have hn : n - 1 = (n - 1 - 1) + 1 := by omega
      conv_rhs => rw [hn, Function.iterate_succ_apply]
    · have : n - 1 = 0 := by omega
      rw [if_neg h, this, Function.iterate_zero_apply]

/-- `evaluateBezierCurve` from `legacygl.ts`: iterative De Casteljau
evaluation of a Bézier curve at each parameter value in `ts`. -/
def evaluateBezierCurve (ps : List Vec3) (ts : List ℝ) : Except String (List Vec3) :=
  if ps.length < 2 then .error "At least 2 control points are required"
  else .ok (ts.map fun t => (reduceToOne t (ps.map Vec3.clone)).headI)

/-- `uniformBSpline` from `bspline.ts`: full repeated pairwise
interpolation, identical in body to `evaluateBezierCurve`. -/
def uniformBSpline (ps : List Vec3) (ts : List ℝ) : Except String (List Vec3) :=
  if ps.length < 2 then .error "At least 2 control points are required"
  else .ok (ts.map fun t => (reduceToOne t (ps.map Vec3.clone)).headI)

/-- One pass of the inner loop of `quadraticUniformBSpline`:
`for (i = 0; i < points.length - 2; i++) vec3.lerp(points[i], points[i], points[i+1], t)`
followed by `points.pop()`: the last pair is left un-lerped, then the last
element is removed. -/
def quadStep (t : ℝ) : List Vec3 → List Vec3
  | a :: b :: c :: rest => Vec3.lerp a b t :: quadStep t (b :: c :: rest)
  | l => l.dropLast

theorem quadStep_length (t : ℝ) (l : List Vec3) :
    (quadStep t l).length = l.length - 1 := by
  induction l with
  | nil => simp [quadStep]
  | cons a l ih =>
    cases l with
    | nil => simp [quadStep]
    | cons b rest =>
      cases rest with
      | nil => simp [quadStep]
      | cons c rest2 =>
        simp only [quadStep, List.length_cons] at ih ⊢
        omega

/-- The `while (points.length > 2)` reduction loop of
`quadraticUniformBSpline`. -/
def reduceToTwo (t : ℝ) (l : List Vec3) : List Vec3 :=
  if h : 2 < l.length then reduceToTwo t (quadStep t l) else l
termination_by l.length
decreasing_by
  rw [quadStep_length]; omega

theorem reduceToTwo_eq (t : ℝ) (l : List Vec3) :
    reduceToTwo t l = if 2 < l.length then reduceToTwo t (quadStep t l) else l := by
  rw [reduceToTwo]; split <;> rfl

/-- `quadraticUniformBSpline` from `bspline.ts`: reduce until two points
remain, return the second (`points[1]`) of the surviving pair for each
parameter value. -/
def quadraticUniformBSpline (ps : List Vec3) (ts : List ℝ) : Except String (List Vec3) :=
  if ps.length < 3 then .error "At least 3 control points are required"
  else .ok (ts.map fun t => (reduceToTwo t (ps.map Vec3.clone)).getD 1 default)

theorem Vec3.clone_eq (v : Vec3) : v.clone = v := rfl

theorem map_clone (l : List Vec3) : l.map Vec3.clone = l := by
  have h : Vec3.clone = id := funext fun v => rfl
  rw [h, List.map_id]

/-- The linear interpolation exactly as worded by the specification:
`lerp(a,b,t) = (1-t)*a + t*b` componentwise.  Stated separately from the
source's `a + t*(b-a)` so the two can be compared. -/
def specLerp (a b : Vec3) (t : ℝ) : Vec3 :=
  ⟨(1 - t) * a.x + t * b.x, (1 - t) * a.y + t * b.y, (1 - t) * a.z + t * b.z⟩

/-- One round of the reduction as worded by the specification: replace
`[B_0 ... B_k]` with `[lerp(B_0,B_1,t) ... lerp(B_{k-1},B_k,t)]`. -/
def specStep (t : ℝ) : List Vec3 → List Vec3
  | a :: b :: rest => specLerp a b t :: specStep t (b :: rest)
  | _ => []

theorem specStep_length (t : ℝ) (l : List Vec3) :
    (specStep t l).length = l.length - 1 := by
  induction l with
  | nil => simp [specStep]
  | cons a l ih =>
    cases l with
    | nil => simp [specStep]
    | cons b rest =>
      simp only [specStep, List.length_cons] at ih ⊢
      omega

/-- The reduction as worded by the specification: repeat `specStep` until
one point remains. -/
def specReduce (t : ℝ) (l : List Vec3) : List Vec3 :=
  if h : 1 < l.length then specReduce t (specStep t l) else l
termination_by l.length
decreasing_by
  rw [specStep_length]; omega

theorem specReduce_eq (t : ℝ) (l : List Vec3) :
    specReduce t l = if 1 < l.length then specReduce t (specStep t l) else l := by
  rw [specReduce]; split <;> rfl

theorem specReduce_eq_iterate :
    ∀ (n : ℕ) (t : ℝ) (l : List Vec3), l.length = n →
      specReduce t l = (specStep t)^[n - 1] l := by
  intro n
  induction n using Nat.strong_induction_on with
  | _ n ih =>
    intro t l hl
    rw [specReduce_eq]
    by_cases h : 1 < l.length
    · have hstep : (specStep t l).length = n - 1 := by rw [specStep_length, hl]
      have hlt : n - 1 < n := by omega
      rw [if_pos h, ih (n - 1) hlt t (specStep t l) hstep]
      have hn : n - 1 = (n - 1 - 1) + 1 := by omega
      conv_rhs => rw [hn, Function.iterate_succ_apply]
    · have : n - 1 = 0 := by omega
      rw [if_neg h, this, Function.iterate_zero_apply]

theorem lerp_eq_specLerp (a b : Vec3) (t : ℝ) : Vec3.lerp a b t = specLerp a b t := by
  simp only [Vec3.lerp, specLerp, Vec3.mk.injEq]
  refine ⟨by ring, by ring, by ring⟩

theorem lerpStep_eq_specStep (t : ℝ) : lerpStep t = specStep t := by
  funext l
  induction l with
  | nil => rfl
  | cons a l ih =>
    cases l with
    | nil => rfl
    | cons b rest =>
      show Vec3.lerp a b t :: lerpStep t (b :: rest)
          = specLerp a b t :: specStep t (b :: rest)
      rw [lerp_eq_specLerp, ih]

theorem reduceToOne_eq_specReduce (t : ℝ) (l : List Vec3) :
    reduceToOne t l = specReduce t l := by
  rw [reduceToOne_eq_iterate l.length t l rfl, specReduce_eq_iterate l.length t l rfl,
    lerpStep_eq_specStep]

/-- C1: for at least two control points, `evaluateBezierCurve` returns one
point per parameter value, in order, and the point for `ts[k]` is the De
Casteljau reduction of the control points at `ts[k]` as worded by the
specification (repeated pairwise `(1-t)*a + t*b` interpolation down to a
single point). -/
theorem evaluateBezierCurve_deCasteljau (ps : List Vec3) (ts : List ℝ)
    (h : 2 ≤ ps.length) :
    evaluateBezierCurve ps ts = .ok (ts.map fun t => (specReduce t ps).headI) ∧
    (ts.map fun t => (specReduce t ps).headI).length = ts.length := by
  refine ⟨?_, List.length_map ts _⟩
  rw [evaluateBezierCurve, if_neg (by omega)]
  have hfun : (fun t => (reduceToOne t (ps.map Vec3.clone)).headI)
      = fun t => (specReduce t ps).headI := by
    funext t
    rw [map_clone, reduceToOne_eq_specReduce]
  rw [hfun]

/-- Witness for C1 at a concrete input. -/
theorem evaluateBezierCurve_deCasteljau_witness :
    2 ≤ ([⟨0, 0, 0⟩, ⟨1, 2, 3⟩] : List Vec3).length ∧
    (evaluateBezierCurve [⟨0, 0, 0⟩, ⟨1, 2, 3⟩] [(0 : ℝ), 1]
        = .ok ([(0 : ℝ), 1].map fun t => (specReduce t [⟨0, 0, 0⟩, ⟨1, 2, 3⟩]).headI) ∧
      ([(0 : ℝ), 1].map fun t => (specReduce t [⟨0, 0, 0⟩, ⟨1, 2, 3⟩]).headI).length
        = ([(0 : ℝ), 1] : List ℝ).length) :=
  ⟨by decide, evaluateBezierCurve_deCasteljau _ _ (by decide)⟩

theorem lerp_zero (a b : Vec3) : Vec3.lerp a b 0 = a := by
  cases a with
  | mk ax ay az =>
    simp only [Vec3.lerp, Vec3.mk.injEq]
    refine ⟨by ring, by ring, by ring⟩

theorem lerp_one (a b : Vec3) : Vec3.lerp a b 1 = b := by
  cases b with
  | mk bx by' bz =>
    simp only [Vec3.lerp, Vec3.mk.injEq]
    refine ⟨by ring, by ring, by ring⟩

theorem lerpStep_zero (l : List Vec3) : lerpStep 0 l = l.dropLast := by
  induction l with
  | nil => rfl
  | cons a l ih =>
    cases l with
    | nil => rfl
    | cons b rest =>
      show Vec3.lerp a b 0 :: lerpStep 0 (b :: rest) = (a :: b :: rest).dropLast
      rw [lerp_zero, ih]
      rfl

theorem lerpStep_one (l : List Vec3) : lerpStep 1 l = l.tail := by
  induction l with
  | nil => rfl
  | cons a l ih =>
    cases l with
    | nil => rfl
    | cons b rest =>
      show Vec3.lerp a b 1 :: lerpStep 1 (b :: rest) = b :: rest
      rw [lerp_one]
      have : lerpStep 1 (b :: rest) = rest := ih
      rw [this]

theorem reduceToOne_at_zero :
    ∀ (n : ℕ) (l : List Vec3), l.length = n → l ≠ [] →
      reduceToOne 0 l = [l.headI] := by
  intro n
  induction n using Nat.strong_induction_on with
  | _ n ih =>
    intro l hl hne
    rcases l with _ | ⟨a, _ | ⟨b, rest⟩⟩
    · exact absurd rfl hne
    · rw [reduceToOne_eq]
      simp
    · rw [reduceToOne_eq, if_pos (by simp), lerpStep_zero]
      have hlen : ((a :: b :: rest).dropLast).length = n - 1 := by
        rw [List.length_dropLast, hl]
      have hn : 2 ≤ n := by simp only [List.length_cons] at hl; omega
      rw [ih (n - 1) (by omega) _ hlen (by simp [List.dropLast])]
      rfl

theorem getLastI_cons_cons {α : Type} [Inhabited α] (a b : α) (l : List α) :
    (a :: b :: l).getLastI = (b :: l).getLastI := by
  rw [List.getLastI_eq_getLast?, List.getLastI_eq_getLast?, List.getLast?_cons_cons]

theorem reduceToOne_at_one :
    ∀ (n : ℕ) (l : List Vec3), l.length = n → l ≠ [] →
      reduceToOne 1 l = [l.getLastI] := by
  intro n
  induction n using Nat.strong_induction_on with
  | _ n ih =>
    intro l hl hne
    rcases l with _ | ⟨a, _ | ⟨b, rest⟩⟩
    · exact absurd rfl hne
    · rw [reduceToOne_eq]
      simp [List.getLastI_eq_getLast?]
    · rw [reduceToOne_eq, if_pos (by simp), lerpStep_one, List.tail_cons]
      have hlen : (b :: rest).length = n - 1 := by
        simp only [List.length_cons] at hl ⊢
        omega
      have hn : 2 ≤ n := by simp only [List.length_cons] at hl; omega
      rw [ih (n - 1) (by omega) _ hlen (by simp)]
      rw [getLastI_cons_cons]

/-- C3: when the parameter sequence contains `t = 0` (resp. `t = 1`) at
position `k`, the `k`-th point returned by `evaluateBezierCurve` is the
first (resp. last) control point, in exact real arithmetic. -/
theorem evaluateBezierCurve_endpoint_interpolation (ps : List Vec3) (ts : List ℝ)
    (h : 2 ≤ ps.length) (k : ℕ) (hk : k < ts.length) :
    ∃ res, evaluateBezierCurve ps ts = .ok res ∧
      (ts.getD k 1 = 0 → res.getD k default = ps.headI) ∧
      (ts.getD k 0 = 1 → res.getD k default = ps.getLastI) := by
  have hne : ps ≠ [] := by
    intro hnil
    rw [hnil] at h
    simp at h
  refine ⟨(ts.map fun t => (reduceToOne t (ps.map Vec3.clone)).headI),
    by rw [evaluateBezierCurve, if_neg (by omega)], ?_, ?_⟩
  · intro ht0
    have hk2 : k < (ts.map fun t => (reduceToOne t (ps.map Vec3.clone)).headI).length := by
      rw [List.length_map]; exact hk
    rw [List.getD_eq_getElem _ _ hk2, List.getElem_map]
    rw [List.getD_eq_getElem _ _ hk] at ht0
    rw [ht0, map_clone, reduceToOne_at_zero ps.length ps rfl hne]
    rfl
  · intro ht1
    have hk2 : k < (ts.map fun t => (reduceToOne t (ps.map Vec3.clone)).headI).length := by
      rw [List.length_map]; exact hk
    rw [List.getD_eq_getElem _ _ hk2, List.getElem_map]
    rw [List.getD_eq_getElem _ _ hk] at ht1
    rw [ht1, map_clone, reduceToOne_at_one ps.length ps rfl hne]
    rfl

/-- Witness for C3 at a concrete input. -/
theorem evaluateBezierCurve_endpoint_interpolation_witness :
    (2 ≤ ([⟨0, 0, 0⟩, ⟨1, 2, 3⟩] : List Vec3).length ∧ 0 < ([(0 : ℝ), 1] : List ℝ).length) ∧
    (∃ res, evaluateBezierCurve [⟨0, 0, 0⟩, ⟨1, 2, 3⟩] [(0 : ℝ), 1] = .ok res ∧
      (([(0 : ℝ), 1] : List ℝ).getD 0 1 = 0 →
        res.getD 0 default = ([⟨0, 0, 0⟩, ⟨1, 2, 3⟩] : List Vec3).headI) ∧
      (([(0 : ℝ), 1] : List ℝ).getD 0 0 = 1 →
        res.getD 0 default = ([⟨0, 0, 0⟩, ⟨1, 2, 3⟩] : List Vec3).getLastI)) :=
  ⟨⟨by decide, by decide⟩,
    evaluateBezierCurve_endpoint_interpolation _ _ (by decide) 0 (by decide)⟩

/-- C8: `uniformBSpline` and `evaluateBezierCurve` are extensionally equal:
on every input they return the same value (the two function bodies are
identical in the source). -/
theorem uniformBSpline_eq_evaluateBezierCurve (ps : List Vec3) (ts : List ℝ) :
    uniformBSpline ps ts = evaluateBezierCurve ps ts := rfl

/-- C2 counterexample: at `ps = [(0,0,0),(1,0,0),(2,1,0)]` and `t = 0.5`
the code returns `(1,0,0)` — the inner loop stops at index
`points.length - 2`, so with three control points the returned
`points[1]` is the untouched middle control point — and `(1,0,0)` differs
from the claimed `(1, 0.25, 0)`. -/
theorem quadraticUniformBSpline_claim_false :
    quadraticUniformBSpline [⟨0, 0, 0⟩, ⟨1, 0, 0⟩, ⟨2, 1, 0⟩] [(0.5 : ℝ)]
        = .ok [⟨1, 0, 0⟩] ∧
    ((⟨1, 0, 0⟩ : Vec3) ≠ ⟨1, 0.25, 0⟩) := by
  constructor
  · rw [quadraticUniformBSpline, if_neg (by simp)]
    rw [show ([⟨0, 0, 0⟩, ⟨1, 0, 0⟩, ⟨2, 1, 0⟩] : List Vec3).map Vec3.clone
        = [⟨0, 0, 0⟩, ⟨1, 0, 0⟩, ⟨2, 1, 0⟩] from map_clone _]
    rw [List.map_singleton, reduceToTwo_eq, if_pos (by simp)]
    rw [show quadStep 0.5 [⟨0, 0, 0⟩, ⟨1, 0, 0⟩, ⟨2, 1, 0⟩]
        = [Vec3.lerp ⟨0, 0, 0⟩ ⟨1, 0, 0⟩ 0.5, ⟨1, 0, 0⟩] from rfl]
    rw [reduceToTwo_eq, if_neg (by simp)]
    rfl
  · intro hEq
    have hy := congrArg Vec3.y hEq
    norm_num at hy

/-- C2 (amended): with exactly three control points `p0, p1, p2` the
reduction stops at the pair `[lerp(p0,p1,t), p1]` (only index 0 is ever
lerped) and the evaluator returns the second element of that pair, i.e.
`p1` unchanged, for every parameter value. -/
theorem quadraticUniformBSpline_three_points (p0 p1 p2 : Vec3) (t : ℝ) (ts : List ℝ) :
    reduceToTwo t [p0, p1, p2] = [Vec3.lerp p0 p1 t, p1] ∧
    quadraticUniformBSpline [p0, p1, p2] ts = .ok (ts.map fun _ => p1) := by
  have hred : ∀ s : ℝ, reduceToTwo s [p0, p1, p2] = [Vec3.lerp p0 p1 s, p1] := by
    intro s
    rw [reduceToTwo_eq, if_pos (by simp)]
    rw [show quadStep s [p0, p1, p2] = [Vec3.lerp p0 p1 s, p1] from rfl]
    rw [reduceToTwo_eq, if_neg (by simp)]
  refine ⟨hred t, ?_⟩
  rw [quadraticUniformBSpline, if_neg (by simp)]
  have hfun : (fun s => (reduceToTwo s (([p0, p1, p2] : List Vec3).map Vec3.clone)).getD 1 default)
      = fun _ : ℝ => p1 := by
    funext s
    rw [map_clone, hred s]
    rfl
  rw [hfun]

/-- `vec3.dist(a, b)`: Euclidean distance between two vectors. -/
noncomputable def Vec3.dist (a b : Vec3) : ℝ :=
  Real.sqrt ((b.x - a.x) ^ 2 + (b.y - a.y) ^ 2 + (b.z - a.z) ^ 2)

/-- The polygon length `lp` computed by `adaptiveSubdivision`:
`Σ dist(top[i], top[i+1])` over consecutive points. -/
noncomputable def polyLen : List Vec3 → ℝ
  | a :: b :: rest => Vec3.dist a b + polyLen (b :: rest)
  | _ => 0

/-- The Gravesen error estimate tested by `adaptiveSubdivision`:
`(n - 1) / (n + 1) * (lp - lc)` with `n = top.length - 1` and
`lc = dist(top[0], top[top.length-1])`. -/
noncomputable def gravesenE (l : List Vec3) : ℝ :=
  (((l.length : ℝ) - 1) - 1) / (((l.length : ℝ) - 1) + 1)
    * (polyLen l - Vec3.dist l.headI l.getLastI)

/-- The inner `while (points.length > 1)` loop of the bisection branch:
after each reduction round at `t = 0.5` the current first point is appended
to `p1s` and the current last point to `p2s`.  Returns the collected tails
of `p1s` and `p2s` (their seeded heads `top[0]` and `top[last]` are added
by `bisectLeft` / `bisectRight`). -/
def collectHalves (l : List Vec3) : List Vec3 × List Vec3 :=
  if h : 1 < l.length then
    let l2 := lerpStep 0.5 l
    let p := collectHalves l2
    (l2.headI :: p.1, l2.getLastI :: p.2)
  else ([], [])
termination_by l.length
decreasing_by
  rw [lerpStep_length]; omega

theorem collectHalves_eq (l : List Vec3) :
    collectHalves l = if 1 < l.length then
      ((lerpStep 0.5 l).headI :: (collectHalves (lerpStep 0.5 l)).1,
       (lerpStep 0.5 l).getLastI :: (collectHalves (lerpStep 0.5 l)).2)
    else ([], []) := by
  rw [collectHalves]; split <;> rfl

/-- `p1s` of the bisection branch: `[clone(top[0])]` followed by the first
point of every reduction round. -/
def bisectLeft (l : List Vec3) : List Vec3 := l.headI :: (collectHalves l).1

/-- `p2s` of the bisection branch: `[clone(top[last])]` followed by the
last point of every reduction round (pushed reversed onto the stack). -/
def bisectRight (l : List Vec3) : List Vec3 := l.getLastI :: (collectHalves l).2

/-- The work-stack loop of `adaptiveSubdivision`, with explicit fuel (the
source gives no termination argument).  The stack head is the most
recently pushed entry; `stack.push(p2s.reverse()); stack.push(p1s)`
becomes `bisectLeft top :: (bisectRight top).reverse :: rest`. -/
noncomputable def adaptiveLoop :
    ℕ → List (List Vec3) → List Vec3 → Option (Except String (List Vec3))
  | 0, _, _ => none
  | _ + 1, [], out => some (.ok out)
  | fuel + 1, top :: rest, out =>
    if top.length < 2 then some (.error "At least 2 control points are required")
    else if top.length = 2 then adaptiveLoop fuel rest (out ++ [top.getD 1 default])
    else if gravesenE top > 1e-5 then
      adaptiveLoop fuel (bisectLeft top :: (bisectRight top).reverse :: rest) out
    else adaptiveLoop fuel rest (out ++ [top.getLastI])

/-- `adaptiveSubdivision` from `legacygl.ts`: guard, degenerate two-point
case, then the work-stack loop seeded with `[ps]` and `out = [clone ps[0]]`. -/
noncomputable def adaptiveSubdivision (fuel : ℕ) (ps : List Vec3) :
    Option (Except String (List Vec3)) :=
  if ps.length < 2 then some (.error "At least 2 control points are required")
  else if ps.length = 2 then some (.ok (ps.map Vec3.clone))
  else adaptiveLoop fuel [ps] [Vec3.clone ps.headI]

theorem collectHalves_fst_length :
    ∀ (n : ℕ) (l : List Vec3), l.length = n → ((collectHalves l).1).length = l.length - 1 := by
  intro n
  induction n using Nat.strong_induction_on with
  | _ n ih =>
    intro l hl
    rw [collectHalves_eq]
    by_cases h : 1 < l.length
    · rw [if_pos h]
      have hstep : (lerpStep 0.5 l).length = n - 1 := by rw [lerpStep_length, hl]
      have := ih (n - 1) (by omega) (lerpStep 0.5 l) hstep
      simp only [List.length_cons, this, hstep]
      omega
    · rw [if_neg h]
      simp only [List.length_nil]
      omega

theorem collectHalves_snd_length :
    ∀ (n : ℕ) (l : List Vec3), l.length = n → ((collectHalves l).2).length = l.length - 1 := by
  intro n
  induction n using Nat.strong_induction_on with
  | _ n ih =>
    intro l hl
    rw [collectHalves_eq]
    by_cases h : 1 < l.length
    · rw [if_pos h]
      have hstep : (lerpStep 0.5 l).length = n - 1 := by rw [lerpStep_length, hl]
      have := ih (n - 1) (by omega) (lerpStep 0.5 l) hstep
      simp only [List.length_cons, this, hstep]
      omega
    · rw [if_neg h]
      simp only [List.length_nil]
      omega

theorem bisectLeft_length (l : List Vec3) (h : 1 ≤ l.length) :
    (bisectLeft l).length = l.length := by
  rw [bisectLeft, List.length_cons, collectHalves_fst_length l.length l rfl]
  omega

theorem bisectRight_length (l : List Vec3) (h : 1 ≤ l.length) :
    (bisectRight l).length = l.length := by
  rw [bisectRight, List.length_cons, collectHalves_snd_length l.length l rfl]
  omega

theorem getLastI_concat {α : Type} [Inhabited α] (l : List α) (x : α) :
    (l ++ [x]).getLastI = x := by
  rw [List.getLastI_eq_getLast?, List.getLast?_concat]

theorem getLastI_reverse {α : Type} [Inhabited α] (l : List α) :
    l.reverse.getLastI = l.headI := by
  rw [List.getLastI_eq_getLast?, List.getLast?_reverse]
  cases l <;> rfl

theorem getD_one_eq_getLastI (l : List Vec3) (h : l.length = 2) :
    l.getD 1 default = l.getLastI := by
  rcases l with _ | ⟨a, _ | ⟨b, _ | ⟨c, r⟩⟩⟩
  · simp at h
  · simp at h
  · rfl
  · simp only [List.length_cons] at h
    omega

/-- Whatever the loop returns successfully extends the output list it was
started with (the loop only ever appends to `out`). -/
theorem adaptiveLoop_ok_append :
    ∀ (fuel : ℕ) (stack : List (List Vec3)) (out res : List Vec3),
      adaptiveLoop fuel stack out = some (.ok res) → ∃ tl, res = out ++ tl := by
  intro fuel
  induction fuel with
  | zero =>
    intro stack out res h
    simp [adaptiveLoop] at h
  | succ fuel ih =>
    intro stack out res h
    cases stack with
    | nil =>
      simp only [adaptiveLoop, Option.some.injEq, Except.ok.injEq] at h
      exact ⟨[], by rw [← h, List.append_nil]⟩
    | cons top rest =>
      simp only [adaptiveLoop] at h
      by_cases h2 : top.length < 2
      · rw [if_pos h2] at h
        simp at h
      · rw [if_neg h2] at h
        by_cases h3 : top.length = 2
        · rw [if_pos h3] at h
          obtain ⟨tl, htl⟩ := ih _ _ _ h
          exact ⟨top.getD 1 default :: tl, by rw [htl, List.append_assoc]; rfl⟩
        · rw [if_neg h3] at h
          by_cases h4 : gravesenE top > 1e-5
          · rw [if_pos h4] at h
            exact ih _ _ _ h
          · rw [if_neg h4] at h
            obtain ⟨tl, htl⟩ := ih _ _ _ h
            exact ⟨top.getLastI :: tl, by rw [htl, List.append_assoc]; rfl⟩

/-- The last point of a successful loop result is the last point of the
bottom-most stack entry. -/
theorem adaptiveLoop_ok_getLastI :
    ∀ (fuel : ℕ) (stack : List (List Vec3)) (out res : List Vec3),
      adaptiveLoop fuel stack out = some (.ok res) → stack ≠ [] →
      res.getLastI = (stack.getLastI).getLastI := by
  intro fuel
  induction fuel with
  | zero =>
    intro stack out res h _
    simp [adaptiveLoop] at h
  | succ fuel ih =>
    intro stack out res h hne
    cases stack with
    | nil => exact absurd rfl hne
    | cons top rest =>
      simp only [adaptiveLoop] at h
      by_cases h2 : top.length < 2
      · rw [if_pos h2] at h
        simp at h
      · rw [if_neg h2] at h
        by_cases h3 : top.length = 2
        · rw [if_pos h3] at h
          cases rest with
          | nil =>
            cases fuel with
            | zero => simp [adaptiveLoop] at h
            | succ f =>
              simp only [adaptiveLoop, Option.some.injEq, Except.ok.injEq] at h
              rw [← h, getLastI_concat]
              rw [show ([top] : List (List Vec3)).getLastI = top from rfl]
              exact getD_one_eq_getLastI top h3
          | cons r rs =>
            have := ih _ _ _ h (by simp)
            rw [this, getLastI_cons_cons]
        · rw [if_neg h3] at h
          by_cases h4 : gravesenE top > 1e-5
          · rw [if_pos h4] at h
            have := ih _ _ _ h (by simp)
            rw [this]
            cases rest with
            | nil =>
              rw [getLastI_cons_cons]
              rw [show ((bisectRight top).reverse :: ([] : List (List Vec3))).getLastI
                  = (bisectRight top).reverse from rfl]
              rw [getLastI_reverse]
              rfl
            | cons r rs =>
              rw [getLastI_cons_cons, getLastI_cons_cons, getLastI_cons_cons]
          · rw [if_neg h4] at h
            cases rest with
            | nil =>
              cases fuel with
              | zero => simp [adaptiveLoop] at h
              | succ f =>
                simp only [adaptiveLoop, Option.some.injEq, Except.ok.injEq] at h
                rw [← h, getLastI_concat]
                rfl
            | cons r rs =>
              have := ih _ _ _ h (by simp)
              rw [this, getLastI_cons_cons]

/-- As long as every stack entry has at least two points, the loop can
never return the invalid-input error; bisection preserves entry length, so
the invariant is maintained. -/
theorem adaptiveLoop_no_error :
    ∀ (fuel : ℕ) (stack : List (List Vec3)) (out : List Vec3),
      (∀ s ∈ stack, 2 ≤ s.length) →
      ∀ e, adaptiveLoop fuel stack out ≠ some (.error e) := by
  intro fuel
  induction fuel with
  | zero =>
    intro stack out hinv e h
    simp [adaptiveLoop] at h
  | succ fuel ih =>
    intro stack out hinv e h
    cases stack with
    | nil => simp [adaptiveLoop] at h
    | cons top rest =>
      simp only [adaptiveLoop] at h
      have htop : 2 ≤ top.length := hinv top (by simp)
      rw [if_neg (by omega)] at h
      by_cases h3 : top.length = 2
      · rw [if_pos h3] at h
        exact ih _ _ (fun s hs => hinv s (by simp [hs])) e h
      · rw [if_neg h3] at h
        have h3' : 3 ≤ top.length := by omega
        by_cases h4 : gravesenE top > 1e-5
        · rw [if_pos h4] at h
          refine ih _ _ ?_ e h
          intro s hs
          simp only [List.mem_cons] at hs
          rcases hs with rfl | rfl | hs
          · rw [bisectLeft_length top (by omega)]
            omega
          · rw [List.length_reverse, bisectRight_length top (by omega)]
            omega
          · exact hinv s (by simp [hs])
        · rw [if_neg h4] at h
          exact ih _ _ (fun s hs => hinv s (by simp [hs])) e h

/-- C4: for at least two control points, any successful result of
`adaptiveSubdivision` is non-empty, starts with the first control point and
ends with the last control point; with exactly two control points the
result is the input itself. -/
theorem adaptiveSubdivision_endpoints (fuel : ℕ) (ps res : List Vec3)
    (h2 : 2 ≤ ps.length)
    (hres : adaptiveSubdivision fuel ps = some (.ok res)) :
    res ≠ [] ∧ res.headI = ps.headI ∧ res.getLastI = ps.getLastI ∧
      (ps.length = 2 → res = ps) := by
  rw [adaptiveSubdivision, if_neg (by omega)] at hres
  by_cases hlen2 : ps.length = 2
  · rw [if_pos hlen2] at hres
    simp only [Option.some.injEq, Except.ok.injEq] at hres
    rw [← hres, map_clone]
    refine ⟨?_, rfl, rfl, fun _ => rfl⟩
    intro hnil
    rw [hnil] at hlen2
    simp at hlen2
  · rw [if_neg hlen2] at hres
    obtain ⟨tl, htl⟩ := adaptiveLoop_ok_append fuel [ps] _ res hres
    have hlast := adaptiveLoop_ok_getLastI fuel [ps] _ res hres (by simp)
    refine ⟨?_, ?_, ?_, fun hc => absurd hc hlen2⟩
    · rw [htl]
      simp
    · rw [htl, List.singleton_append]
      exact Vec3.clone_eq ps.headI
    · rw [hlast]
      rfl

/-- Witness for C4 at a concrete input (the two-point degenerate case). -/
theorem adaptiveSubdivision_endpoints_witness :
    (2 ≤ ([⟨0, 0, 0⟩, ⟨1, 0, 0⟩] : List Vec3).length ∧
      adaptiveSubdivision 1 [⟨0, 0, 0⟩, ⟨1, 0, 0⟩]
        = some (.ok [⟨0, 0, 0⟩, ⟨1, 0, 0⟩])) ∧
    (([⟨0, 0, 0⟩, ⟨1, 0, 0⟩] : List Vec3) ≠ [] ∧
      ([⟨0, 0, 0⟩, ⟨1, 0, 0⟩] : List Vec3).headI
        = ([⟨0, 0, 0⟩, ⟨1, 0, 0⟩] : List Vec3).headI ∧
      ([⟨0, 0, 0⟩, ⟨1, 0, 0⟩] : List Vec3).getLastI
        = ([⟨0, 0, 0⟩, ⟨1, 0, 0⟩] : List Vec3).getLastI ∧
      (([⟨0, 0, 0⟩, ⟨1, 0, 0⟩] : List Vec3).length = 2 →
        ([⟨0, 0, 0⟩, ⟨1, 0, 0⟩] : List Vec3) = [⟨0, 0, 0⟩, ⟨1, 0, 0⟩])) :=
  ⟨⟨by decide, rfl⟩,
    adaptiveSubdivision_endpoints 1 [⟨0, 0, 0⟩, ⟨1, 0, 0⟩] [⟨0, 0, 0⟩, ⟨1, 0, 0⟩]
      (by decide) rfl⟩

/-- C10: with at least two control points `adaptiveSubdivision` never
returns the internal invalid-input error of the work-stack loop (no matter
how much fuel the loop is given), because both halves produced by a
bisection have exactly as many points as their parent. -/
theorem adaptiveSubdivision_no_internal_error (fuel : ℕ) (ps : List Vec3)
    (h2 : 2 ≤ ps.length) :
    (∀ e, adaptiveSubdivision fuel ps ≠ some (.error e)) ∧
    (∀ l : List Vec3, 3 ≤ l.length →
      (bisectLeft l).length = l.length ∧
      ((bisectRight l).reverse).length = l.length) := by
  constructor
  · intro e h
    rw [adaptiveSubdivision, if_neg (by omega)] at h
    by_cases hlen2 : ps.length = 2
    · rw [if_pos hlen2] at h
      simp at h
    · rw [if_neg hlen2] at h
      refine adaptiveLoop_no_error fuel [ps] _ ?_ e h
      intro s hs
      simp only [List.mem_singleton] at hs
      rw [hs]
      omega
  · intro l hl
    refine ⟨bisectLeft_length l (by omega), ?_⟩
    rw [List.length_reverse]
    exact bisectRight_length l (by omega)

/-- Witness for C10 at a concrete input. -/
theorem adaptiveSubdivision_no_internal_error_witness :
    2 ≤ ([⟨0, 0, 0⟩, ⟨1, 0, 0⟩] : List Vec3).length ∧
    ((∀ e, adaptiveSubdivision 1 [⟨0, 0, 0⟩, ⟨1, 0, 0⟩] ≠ some (.error e)) ∧
      (∀ l : List Vec3, 3 ≤ l.length →
        (bisectLeft l).length = l.length ∧
        ((bisectRight l).reverse).length = l.length)) :=
  ⟨by decide, adaptiveSubdivision_no_internal_error 1 [⟨0, 0, 0⟩, ⟨1, 0, 0⟩] (by decide)⟩

theorem collectHalves_fst_eq_iterate :
    ∀ (n : ℕ) (l : List Vec3), l.length = n →
      (collectHalves l).1
        = (List.range (l.length - 1)).map (fun i => ((lerpStep 0.5)^[i + 1] l).headI) := by
  intro n
  induction n using Nat.strong_induction_on with
  | _ n ih =>
    intro l hl
    by_cases h : 1 < l.length
    · have hstep : (lerpStep 0.5 l).length = n - 1 := by rw [lerpStep_length, hl]
      have hproj : (collectHalves l).1
          = (lerpStep 0.5 l).headI :: (collectHalves (lerpStep 0.5 l)).1 := by
        rw [collectHalves_eq, if_pos h]
      rw [hproj, ih (n - 1) (by omega) _ hstep, hstep, hl]
      have hn1 : n - 1 = (n - 1 - 1) + 1 := by omega
      conv_rhs => rw [hn1, List.range_succ_eq_map, List.map_cons, List.map_map]
      exact rfl
    · have hproj : (collectHalves l).1 = [] := by
        rw [collectHalves_eq, if_neg h]
      have hlen : l.length - 1 = 0 := by omega
      rw [hproj, hlen]
      rfl

theorem collectHalves_snd_eq_iterate :
    ∀ (n : ℕ) (l : List Vec3), l.length = n →
      (collectHalves l).2
        = (List.range (l.length - 1)).map (fun i => ((lerpStep 0.5)^[i + 1] l).getLastI) := by
  intro n
  induction n using Nat.strong_induction_on with
  | _ n ih =>
    intro l hl
    by_cases h : 1 < l.length
    · have hstep : (lerpStep 0.5 l).length = n - 1 := by rw [lerpStep_length, hl]
      have hproj : (collectHalves l).2
          = (lerpStep 0.5 l).getLastI :: (collectHalves (lerpStep 0.5 l)).2 := by
        rw [collectHalves_eq, if_pos h]
      rw [hproj, ih (n - 1) (by omega) _ hstep, hstep, hl]
      have hn1 : n - 1 = (n - 1 - 1) + 1 := by omega
      conv_rhs => rw [hn1, List.range_succ_eq_map, List.map_cons, List.map_map]
      exact rfl
    · have hproj : (collectHalves l).2 = [] := by
        rw [collectHalves_eq, if_neg h]
      have hlen : l.length - 1 = 0 := by omega
      rw [hproj, hlen]
      rfl

/-- C5: a popped subsequence of at least three points is bisected exactly
when the Gravesen estimate `(n-1)/(n+1) * (Lp - Lc)` exceeds `1e-5` — the
right half (the reversed diagonal of last points of the De Casteljau
rounds at `t = 0.5`) is pushed first and the left half (the diagonal of
first points) on top of it, so the left half is processed next — and
otherwise the subsequence's last point is emitted directly. -/
theorem adaptiveLoop_bisection_step (fuel : ℕ) (top : List Vec3)
    (rest : List (List Vec3)) (out : List Vec3) (h3 : 3 ≤ top.length) :
    bisectLeft top
      = (List.range top.length).map (fun i => ((lerpStep 0.5)^[i] top).headI) ∧
    bisectRight top
      = (List.range top.length).map (fun i => ((lerpStep 0.5)^[i] top).getLastI) ∧
    adaptiveLoop (fuel + 1) (top :: rest) out =
      (if gravesenE top > 1e-5
       then adaptiveLoop fuel (bisectLeft top :: (bisectRight top).reverse :: rest) out
       else adaptiveLoop fuel rest (out ++ [top.getLastI])) := by
  refine ⟨?_, ?_, ?_⟩
  · rw [bisectLeft, collectHalves_fst_eq_iterate top.length top rfl]
    have hlen : top.length = (top.length - 1) + 1 := by omega
    conv_rhs => rw [hlen, List.range_succ_eq_map, List.map_cons, List.map_map]
    rfl
  · rw [bisectRight, collectHalves_snd_eq_iterate top.length top rfl]
    have hlen : top.length = (top.length - 1) + 1 := by omega
    conv_rhs => rw [hlen, List.range_succ_eq_map, List.map_cons, List.map_map]
    rfl
  · simp only [adaptiveLoop]
    rw [if_neg (by omega), if_neg (by omega)]

/-- Witness for C5 at a concrete input. -/
theorem adaptiveLoop_bisection_step_witness :
    3 ≤ ([⟨0, 0, 0⟩, ⟨1, 0, 0⟩, ⟨0, 1, 0⟩] : List Vec3).length ∧
    (bisectLeft [⟨0, 0, 0⟩, ⟨1, 0, 0⟩, ⟨0, 1, 0⟩]
      = (List.range ([⟨0, 0, 0⟩, ⟨1, 0, 0⟩, ⟨0, 1, 0⟩] : List Vec3).length).map
          (fun i => ((lerpStep 0.5)^[i] [⟨0, 0, 0⟩, ⟨1, 0, 0⟩, ⟨0, 1, 0⟩]).headI) ∧
    bisectRight [⟨0, 0, 0⟩, ⟨1, 0, 0⟩, ⟨0, 1, 0⟩]
      = (List.range ([⟨0, 0, 0⟩, ⟨1, 0, 0⟩, ⟨0, 1, 0⟩] : List Vec3).length).map
          (fun i => ((lerpStep 0.5)^[i] [⟨0, 0, 0⟩, ⟨1, 0, 0⟩, ⟨0, 1, 0⟩]).getLastI) ∧
    adaptiveLoop (0 + 1) ([⟨0, 0, 0⟩, ⟨1, 0, 0⟩, ⟨0, 1, 0⟩] :: []) [] =
      (if gravesenE [⟨0, 0, 0⟩, ⟨1, 0, 0⟩, ⟨0, 1, 0⟩] > 1e-5
       then adaptiveLoop 0
         (bisectLeft [⟨0, 0, 0⟩, ⟨1, 0, 0⟩, ⟨0, 1, 0⟩]
           :: (bisectRight [⟨0, 0, 0⟩, ⟨1, 0, 0⟩, ⟨0, 1, 0⟩]).reverse :: []) []
       else adaptiveLoop 0 []
         ([] ++ [([⟨0, 0, 0⟩, ⟨1, 0, 0⟩, ⟨0, 1, 0⟩] : List Vec3).getLastI]))) :=
  ⟨by decide,
    adaptiveLoop_bisection_step 0 [⟨0, 0, 0⟩, ⟨1, 0, 0⟩, ⟨0, 1, 0⟩] [] [] (by decide)⟩

/-- Knot-spacing weight of `catmullRomImpl`: `vec3.dist(a, b) ** alpha`
(JavaScript `**` on a non-negative base agrees with the real power, with
`x ** 0 = 1` even at `x = 0`). -/
noncomputable def crT (a b : Vec3) (alpha : ℝ) : ℝ := Vec3.dist a b ^ alpha

/-- One component of the incoming tangent `m1` of `catmullRomImpl`:
`(1 - tension) * (p2 - p1 + t12 * ((p1 - p0)/t01 - (p2 - p0)/(t01 + t12)))`. -/
noncomputable def m1c (tension p0 p1 p2 t01 t12 : ℝ) : ℝ :=
  (1 - tension) * (p2 - p1 + t12 * ((p1 - p0) / t01 - (p2 - p0) / (t01 + t12)))

/-- One component of the outgoing tangent `m2` of `catmullRomImpl`:
`(1 - tension) * (p2 - p1 + t12 * ((p3 - p2)/t23 - (p3 - p1)/(t23 + t12)))`. -/
noncomputable def m2c (tension p1 p2 p3 t12 t23 : ℝ) : ℝ :=
  (1 - tension) * (p2 - p1 + t12 * ((p3 - p2) / t23 - (p3 - p1) / (t23 + t12)))

/-- The tangent vector `m1` of a Catmull-Rom window. -/
noncomputable def crM1 (p0 p1 p2 p3 : Vec3) (alpha tension : ℝ) : Vec3 :=
  ⟨m1c tension p0.x p1.x p2.x (crT p0 p1 alpha) (crT p1 p2 alpha),
   m1c tension p0.y p1.y p2.y (crT p0 p1 alpha) (crT p1 p2 alpha),
   m1c tension p0.z p1.z p2.z (crT p0 p1 alpha) (crT p1 p2 alpha)⟩

/-- The tangent vector `m2` of a Catmull-Rom window. -/
noncomputable def crM2 (p0 p1 p2 p3 : Vec3) (alpha tension : ℝ) : Vec3 :=
  ⟨m2c tension p1.x p2.x p3.x (crT p1 p2 alpha) (crT p2 p3 alpha),
   m2c tension p1.y p2.y p3.y (crT p1 p2 alpha) (crT p2 p3 alpha),
   m2c tension p1.z p2.z p3.z (crT p1 p2 alpha) (crT p2 p3 alpha)⟩

/-- Hermite coefficient `a = 2*(p1 - p2) + m1 + m2` of `catmullRomImpl`. -/
noncomputable def crA (p0 p1 p2 p3 : Vec3) (alpha tension : ℝ) : Vec3 :=
  ⟨2 * (p1.x - p2.x) + (crM1 p0 p1 p2 p3 alpha tension).x + (crM2 p0 p1 p2 p3 alpha tension).x,
   2 * (p1.y - p2.y) + (crM1 p0 p1 p2 p3 alpha tension).y + (crM2 p0 p1 p2 p3 alpha tension).y,
   2 * (p1.z - p2.z) + (crM1 p0 p1 p2 p3 alpha tension).z + (crM2 p0 p1 p2 p3 alpha tension).z⟩

/-- Hermite coefficient `b = -3*(p1 - p2) - 2*m1 - m2` of `catmullRomImpl`. -/
noncomputable def crB (p0 p1 p2 p3 : Vec3) (alpha tension : ℝ) : Vec3 :=
  ⟨-3 * (p1.x - p2.x) - 2 * (crM1 p0 p1 p2 p3 alpha tension).x
      - (crM2 p0 p1 p2 p3 alpha tension).x,
   -3 * (p1.y - p2.y) - 2 * (crM1 p0 p1 p2 p3 alpha tension).y
      - (crM2 p0 p1 p2 p3 alpha tension).y,
   -3 * (p1.z - p2.z) - 2 * (crM1 p0 p1 p2 p3 alpha tension).z
      - (crM2 p0 p1 p2 p3 alpha tension).z⟩

/-- One sample `((a*t + b)*t + c)*t + d` of the Hermite cubic, componentwise
(`c = m1` and `d = p1` in `catmullRomImpl`). -/
noncomputable def hermiteSample (a b c d : Vec3) (t : ℝ) : Vec3 :=
  ⟨((a.x * t + b.x) * t + c.x) * t + d.x,
   ((a.y * t + b.y) * t + c.y) * t + d.y,
   ((a.z * t + b.z) * t + c.z) * t + d.z⟩

/-- One window `(p0,p1,p2,p3)` of `catmullRomImpl`: 21 samples of the
Hermite cubic at `t = i/20`, `i = 0..20`. -/
noncomputable def catmullRomSegment (p0 p1 p2 p3 : Vec3) (alpha tension : ℝ) : List Vec3 :=
  (List.range 21).map fun i : ℕ =>
    hermiteSample (crA p0 p1 p2 p3 alpha tension) (crB p0 p1 p2 p3 alpha tension)
      (crM1 p0 p1 p2 p3 alpha tension) p1 ((i : ℝ) / 20)

/-- `catmullRomImpl` from `App.tsx`: the loop
`for (k = 0; k < ps.length - 3; k++)` over sliding windows of four
consecutive control points, each appending its 21 samples. -/
noncomputable def catmullRomImpl (ps : List Vec3) (alpha tension : ℝ) : List Vec3 :=
  ((List.range (ps.length - 3)).map fun k =>
    catmullRomSegment (ps.getD k default) (ps.getD (k + 1) default)
      (ps.getD (k + 2) default) (ps.getD (k + 3) default) alpha tension).flatten

/-- The `{uniform, chordal, centripetal}` selector of `cubicCatmullRomSpline`. -/
structure KnotParametrization where
  uniform : Bool
  chordal : Bool
  centripetal : Bool

/-- The record returned by `cubicCatmullRomSpline`. -/
structure CatmullRomResult where
  uniformResult : List Vec3
  chordalResult : List Vec3
  centripetalResult : List Vec3

/-- `cubicCatmullRomSpline` from `App.tsx`: guard, then one independent
`catmullRomImpl` run per active flag with `alpha = 0, 1, 0.5` and
`tension = 0`. -/
noncomputable def cubicCatmullRomSpline (ps : List Vec3) (kp : KnotParametrization) :
    Except String CatmullRomResult :=
  if ps.length < 4 then .error "At least 4 control points are required"
  else .ok
    { uniformResult := if kp.uniform then catmullRomImpl ps 0 0 else []
      chordalResult := if kp.chordal then catmullRomImpl ps 1 0 else []
      centripetalResult := if kp.centripetal then catmullRomImpl ps 0.5 0 else [] }

theorem hermiteSample_zero (a b c d : Vec3) : hermiteSample a b c d 0 = d := by
  cases d with
  | mk dx dy dz =>
    simp only [hermiteSample, Vec3.mk.injEq]
    refine ⟨by ring, by ring, by ring⟩

theorem hermiteSample_one (p0 p1 p2 p3 : Vec3) (alpha tension : ℝ) :
    hermiteSample (crA p0 p1 p2 p3 alpha tension) (crB p0 p1 p2 p3 alpha tension)
      (crM1 p0 p1 p2 p3 alpha tension) p1 1 = p2 := by
  cases p2 with
  | mk x2 y2 z2 =>
    simp only [hermiteSample, crA, crB, Vec3.mk.injEq]
    refine ⟨by ring, by ring, by ring⟩

theorem catmullRomSegment_length (p0 p1 p2 p3 : Vec3) (alpha tension : ℝ) :
    (catmullRomSegment p0 p1 p2 p3 alpha tension).length = 21 := by
  rw [catmullRomSegment, List.length_map, List.length_range]

theorem catmullRomImpl_length (ps : List Vec3) (alpha tension : ℝ) :
    (catmullRomImpl ps alpha tension).length = 21 * (ps.length - 3) := by
  rw [catmullRomImpl, List.length_flatten, List.map_map]
  have : (List.map
      ((fun l : List Vec3 => l.length) ∘ fun k =>
        catmullRomSegment (ps.getD k default) (ps.getD (k + 1) default)
          (ps.getD (k + 2) default) (ps.getD (k + 3) default) alpha tension)
      (List.range (ps.length - 3)))
      = List.map (Function.const ℕ 21) (List.range (ps.length - 3)) := by
    apply List.map_congr_left
    intro k _
    exact catmullRomSegment_length _ _ _ _ _ _
  rw [this, List.map_const, List.length_range, List.sum_replicate, smul_eq_mul]
  ring

/-- C6: with exactly four control points and only the uniform flag active,
`cubicCatmullRomSpline` returns a `uniformResult` of exactly 21 points —
the samples of the Hermite cubic at `t = i/20`, `i = 0..20` — whose sample
0 is `p1` and whose sample 20 is `p2`; in general each parametrization run
contributes exactly 21 samples per each of the `len(ps) - 3` sliding
windows. -/
theorem cubicCatmullRomSpline_uniform (p0 p1 p2 p3 : Vec3)
    (ps : List Vec3) (alpha : ℝ) :
    (∃ r, cubicCatmullRomSpline [p0, p1, p2, p3] ⟨true, false, false⟩ = .ok r ∧
      r.uniformResult.length = 21 ∧
      r.uniformResult = (List.range 21).map
        (fun i : ℕ => hermiteSample (crA p0 p1 p2 p3 0 0) (crB p0 p1 p2 p3 0 0)
          (crM1 p0 p1 p2 p3 0 0) p1 ((i : ℝ) / 20)) ∧
      r.uniformResult.getD 0 default = p1 ∧
      r.uniformResult.getD 20 default = p2) ∧
    (catmullRomImpl ps alpha 0).length = 21 * (ps.length - 3) := by
  refine ⟨?_, catmullRomImpl_length ps alpha 0⟩
  have hseg : catmullRomImpl [p0, p1, p2, p3] 0 0
      = catmullRomSegment p0 p1 p2 p3 0 0 := by
    rw [catmullRomImpl]
    rw [show ([p0, p1, p2, p3] : List Vec3).length - 3 = 1 from rfl]
    rw [show List.range 1 = [0] from rfl]
    simp only [List.map_cons, List.map_nil, List.flatten]
    rw [List.append_nil]
    rfl
  refine ⟨{ uniformResult := catmullRomImpl [p0, p1, p2, p3] 0 0,
            chordalResult := [], centripetalResult := [] }, ?_, ?_, ?_, ?_, ?_⟩
  · rw [cubicCatmullRomSpline, if_neg (by simp)]
    simp
  · rw [hseg, catmullRomSegment_length]
  · rw [hseg, catmullRomSegment]
  · rw [hseg, catmullRomSegment]
    rw [List.getD_eq_getElem _ _ (by simp), List.getElem_map, List.getElem_range]
    rw [show ((0 : ℕ) : ℝ) / 20 = 0 by norm_num]
    exact hermiteSample_zero _ _ _ _
  · rw [hseg, catmullRomSegment]
    rw [List.getD_eq_getElem _ _ (by simp), List.getElem_map, List.getElem_range]
    rw [show ((20 : ℕ) : ℝ) / 20 = 1 by norm_num]
    exact hermiteSample_one p0 p1 p2 p3 0 0

/-- C7: every evaluator rejects exactly the inputs with fewer control
points than its algorithm requires (2 for Bézier, the uniform B-spline and
adaptive subdivision, 3 for the quadratic B-spline, 4 for Catmull-Rom),
and accepts all others. -/
theorem evaluators_error_iff_insufficient_points (ps : List Vec3) (ts : List ℝ)
    (kp : KnotParametrization) (fuel : ℕ) :
    ((∃ e, evaluateBezierCurve ps ts = .error e) ↔ ps.length < 2) ∧
    ((∃ e, uniformBSpline ps ts = .error e) ↔ ps.length < 2) ∧
    ((∃ e, quadraticUniformBSpline ps ts = .error e) ↔ ps.length < 3) ∧
    ((∃ e, cubicCatmullRomSpline ps kp = .error e) ↔ ps.length < 4) ∧
    ((∃ e, adaptiveSubdivision fuel ps = some (.error e)) ↔ ps.length < 2) := by
  refine ⟨?_, ?_, ?_, ?_, ?_⟩
  · by_cases h : ps.length < 2
    · rw [evaluateBezierCurve, if_pos h]
      exact ⟨fun _ => h, fun _ => ⟨_, rfl⟩⟩
    · rw [evaluateBezierCurve, if_neg h]
      exact ⟨fun ⟨e, he⟩ => absurd he (by simp), fun hl => absurd hl h⟩
  · by_cases h : ps.length < 2
    · rw [uniformBSpline, if_pos h]
      exact ⟨fun _ => h, fun _ => ⟨_, rfl⟩⟩
    · rw [uniformBSpline, if_neg h]
      exact ⟨fun ⟨e, he⟩ => absurd he (by simp), fun hl => absurd hl h⟩
  · by_cases h : ps.length < 3
    · rw [quadraticUniformBSpline, if_pos h]
      exact ⟨fun _ => h, fun _ => ⟨_, rfl⟩⟩
    · rw [quadraticUniformBSpline, if_neg h]
      exact ⟨fun ⟨e, he⟩ => absurd he (by simp), fun hl => absurd hl h⟩
  · by_cases h : ps.length < 4
    · rw [cubicCatmullRomSpline, if_pos h]
      exact ⟨fun _ => h, fun _ => ⟨_, rfl⟩⟩
    · rw [cubicCatmullRomSpline, if_neg h]
      exact ⟨fun ⟨e, he⟩ => absurd he (by simp), fun hl => absurd hl h⟩
  · by_cases h : ps.length < 2
    · rw [adaptiveSubdivision, if_pos h]
      exact ⟨fun _ => h, fun _ => ⟨_, rfl⟩⟩
    · rw [adaptiveSubdivision, if_neg h]
      constructor
      · rintro ⟨e, he⟩
        by_cases h2 : ps.length = 2
        · rw [if_pos h2] at he
          simp at he
        · rw [if_neg h2] at he
          refine absurd he (adaptiveLoop_no_error fuel [ps] _ ?_ e)
          intro s hs
          simp only [List.mem_singleton] at hs
          rw [hs]
          omega
      · intro hl
        exact absurd hl h

end Curves
